import Mathlib

/-!
Verification of `src/rich-text/parse-style.ts` from charlie-tango/umbraco-rich-text.

Strings are modelled as `List Char`.  JavaScript semantics are embedded
faithfully:

* `String.prototype.trim` removes the ECMAScript whitespace set from both ends
  (`jsTrim` below, with `isJsWhitespace` covering the code points).
* `String.prototype.split(sep)` with a single-character separator is
  `splitOnChar`; note that it splits on EVERY occurrence of the separator
  (`"a:b:c".split(":") = ["a","b","c"]`) and that `let [p, v] = xs` takes only
  the first two parts.
* A JS object used as a string-keyed record, and a JS `Map`, both update an
  existing key in place and append a fresh key at the end; `Map` iteration
  order is insertion order.  Both are modelled as association lists with
  `assocSet` / `lookupAssoc`, where the head is the oldest-inserted entry.
* The module-level `styleCache` is modelled as explicit state threaded through
  `parseStyle`; `Reachable` captures every cache state obtainable from the
  initial empty cache by any sequence of `parseStyle` calls.
-/

/-- The ECMAScript whitespace set used by `String.prototype.trim`. -/
def isJsWhitespace (c : Char) : Bool :=
  c = ' ' || c = '\t' || c = '\n' || c = '\r' || c = '\x0b' || c = '\x0c' ||
  c = '\u00A0' || c = '\uFEFF' || c = '\u1680' ||
  ('\u2000' ≤ c && c ≤ '\u200A') ||
  c = '\u2028' || c = '\u2029' || c = '\u202F' || c = '\u205F' || c = '\u3000'

/-- JavaScript `String.prototype.trim`. -/
def jsTrim (l : List Char) : List Char :=
  ((l.dropWhile isJsWhitespace).reverse.dropWhile isJsWhitespace).reverse

/-- JavaScript `str.split(c)` for a single-character separator `c`. -/
def splitOnChar (c : Char) : List Char → List (List Char)
  | [] => [[]]
  | x :: xs =>
    if x = c then [] :: splitOnChar c xs
    else
      match splitOnChar c xs with
      | [] => [[x]]
      | h :: t => (x :: h) :: t

/-- ASCII `[a-z]`, the character class of the regex in `toCamelCase`. -/
def isAsciiLower (c : Char) : Bool := 'a' ≤ c && c ≤ 'z'

/-- `toCamelCase` from the source: a global regex replace of dash followed by
`[a-z]` with the uppercase of the captured letter.  The regex engine scans
left to right; each non-overlapping match `-x` (with `x` an ASCII lowercase
letter) is replaced by the uppercase of `x`. -/
def toCamelCase : List Char → List Char
  | [] => []
  | [c] => [c]
  | c1 :: c2 :: rest =>
    if c1 = '-' ∧ isAsciiLower c2 then Char.toUpper c2 :: toCamelCase rest
    else c1 :: toCamelCase (c2 :: rest)

/-- JS `str.startsWith("--")`. -/
def startsWithDashDash : List Char → Bool
  | '-' :: '-' :: _ => true
  | _ => false

/-- A parsed style map (`Record<string, string>` / `CSSProperties`),
as an insertion-ordered association list. -/
abbrev StyleMap := List (List Char × List Char)

/-- Assignment on a JS object / `Map.set`: an existing key keeps its position
and gets the new value, a fresh key is appended at the end. -/
def assocSet {β : Type} : List (List Char × β) → List Char → β → List (List Char × β)
  | [], k, v => [(k, v)]
  | (k1, v1) :: rest, k, v =>
    if k1 = k then (k1, v) :: rest else (k1, v1) :: assocSet rest k v

/-- JS object property read / `Map.get` (keys are unique, first match). -/
def lookupAssoc {β : Type} : List (List Char × β) → List Char → Option β
  | [], _ => none
  | (k1, v1) :: rest, k => if k1 = k then some v1 else lookupAssoc rest k

/-- The property/value a single declaration stores, if any.  Transcribes the
loop body: `let [property, value] = el.split(":"); if (!property || value ===
undefined) continue;` followed by trim and camel-casing of the name. -/
def normalizeProperty (raw : List Char) : List Char :=
  let property := jsTrim raw
  if startsWithDashDash property then property else toCamelCase property

/-- Key/value pair contributed by one candidate declaration `el`, or `none`
when the declaration is skipped (`continue`). -/
def declKV (el : List Char) : Option (List Char × List Char) :=
  match splitOnChar ':' el with
  | property :: value :: _ =>
    if property = [] then none
    else some (normalizeProperty property, jsTrim value)
  | _ => none

/-- One iteration of the `for (const el of styleElements)` loop. -/
def processDecl (m : StyleMap) (el : List Char) : StyleMap :=
  match declKV el with
  | some (k, v) => assocSet m k v
  | none => m

/-- The uncached parse of an already-normalized (trimmed, nonempty) style
string: split on `;` and process each declaration in order. -/
def parseStyleCore (normalizedStyle : List Char) : StyleMap :=
  (splitOnChar ';' normalizedStyle).foldl processDecl []

/-- `MAX_STYLE_CACHE_ENTRIES` from the source. -/
def MAX_STYLE_CACHE_ENTRIES : Nat := 200

/-- The module-level `styleCache : Map<string, CSSProperties>`, as explicit
state.  The head of the list is the oldest-inserted entry
(`styleCache.keys().next().value`). -/
abbrev Cache := List (List Char × StyleMap)

/-- `parseStyle` from the source, with the cache threaded explicitly: returns
the parsed style map and the updated cache. -/
def parseStyle (styleCache : Cache) (style : List Char) : StyleMap × Cache :=
  let normalizedStyle := jsTrim style
  if normalizedStyle = [] then ([], styleCache)
  else
    match lookupAssoc styleCache normalizedStyle with
    | some cached => (cached, styleCache)
    | none =>
      let parsed := parseStyleCore normalizedStyle
      let styleCache1 :=
        if MAX_STYLE_CACHE_ENTRIES ≤ styleCache.length then styleCache.drop 1
        else styleCache
      (parsed, assocSet styleCache1 normalizedStyle parsed)

/-- The pure, uncached parsing algorithm of the spec: trim the input, return
the empty map on an empty result, otherwise parse the declarations. -/
def parsePure (style : List Char) : StyleMap :=
  let normalized := jsTrim style
  if normalized = [] then [] else parseStyleCore normalized

/-- Cache states reachable from the initial empty cache by `parseStyle` calls. -/
inductive Reachable : Cache → Prop
  | nil : Reachable []
  | step (c : Cache) (s : List Char) : Reachable c → Reachable (parseStyle c s).2

/-- Invariant of the style cache: every entry maps a normalized nonempty key
to its uncached parse. -/
def CacheInv (c : Cache) : Prop :=
  ∀ kv ∈ c, kv.2 = parseStyleCore kv.1 ∧ jsTrim kv.1 = kv.1 ∧ kv.1 ≠ []

/-- The value stored for key `k` by declaration `el`, if `el` stores `k`. -/
def contribution (el k : List Char) : Option (List Char) :=
  match declKV el with
  | some (k1, v) => if k1 = k then some v else none
  | none => none

/-- Scan declarations left to right, remembering the most recent value stored
for key `k` (starting from `acc`). -/
def lastContributionAux (acc : Option (List Char)) (ds : List (List Char)) (k : List Char) :
    Option (List Char) :=
  match ds with
  | [] => acc
  | el :: rest =>
    lastContributionAux
      (match contribution el k with | some v => some v | none => acc) rest k

/-- The value of the last declaration in `ds` that stores key `k`, if any. -/
def lastContribution (ds : List (List Char)) (k : List Char) : Option (List Char) :=
  lastContributionAux none ds k

/-- Characters of a string literal, for concrete inputs. -/
def chars (s : String) : List Char := s.data

/-- A concrete full cache (200 entries) used to exercise the eviction branch. -/
def witnessCache : Cache := List.replicate 200 (chars "a", [])

/-! ### Association-list (JS object / Map) lemmas -/

theorem lookupAssoc_mem {β : Type} {m : List (List Char × β)} {k : List Char} {v : β}
    (h : lookupAssoc m k = some v) : (k, v) ∈ m := by
  induction m with
  | nil => simp [lookupAssoc] at h
  | cons kv rest ih =>
    obtain ⟨k1, v1⟩ := kv
    simp only [lookupAssoc] at h
    by_cases hk : k1 = k
    · simp [hk] at h
      subst hk h
      exact List.mem_cons_self _ _
    · simp [hk] at h
      exact List.mem_cons_of_mem _ (ih h)

theorem lookupAssoc_eq_none_iff {β : Type} (m : List (List Char × β)) (k : List Char) :
    lookupAssoc m k = none ↔ ∀ kv ∈ m, kv.1 ≠ k := by
  induction m with
  | nil => simp [lookupAssoc]
  | cons kv rest ih =>
    obtain ⟨k1, v1⟩ := kv
    simp only [lookupAssoc, List.forall_mem_cons]
    by_cases hk : k1 = k
    · subst hk
      simp only [if_pos rfl]
      constructor
      · intro h; cases h
      · intro h; exact absurd rfl h.1
    · simp only [if_neg hk, ih]
      constructor
      · intro h; exact ⟨hk, h⟩
      · intro h; exact h.2

theorem assocSet_of_lookupAssoc_none {β : Type} {m : List (List Char × β)} {k : List Char}
    (v : β) (h : lookupAssoc m k = none) : assocSet m k v = m ++ [(k, v)] := by
  induction m with
  | nil => simp [assocSet]
  | cons kv rest ih =>
    obtain ⟨k1, v1⟩ := kv
    simp only [lookupAssoc] at h
    by_cases hk : k1 = k
    · simp [hk] at h
    · simp [assocSet, hk] at h ⊢
      exact ih h

theorem mem_assocSet {β : Type} {m : List (List Char × β)} {k : List Char} {v : β}
    {kv : List Char × β} (h : kv ∈ assocSet m k v) : kv ∈ m ∨ kv = (k, v) := by
  induction m with
  | nil => simp [assocSet] at h; simp [h]
  | cons kv1 rest ih =>
    obtain ⟨k1, v1⟩ := kv1
    by_cases hk : k1 = k
    · simp [assocSet, hk] at h
      rcases h with h | h
      · subst hk; right; simp [h]
      · left; exact List.mem_cons_of_mem _ h
    · simp [assocSet, hk] at h
      rcases h with h | h
      · left; simp [h]
      · rcases ih h with h1 | h1
        · left; exact List.mem_cons_of_mem _ h1
        · right; exact h1

theorem lookupAssoc_assocSet {β : Type} (m : List (List Char × β)) (k : List Char) (v : β)
    (q : List Char) :
    lookupAssoc (assocSet m k v) q = if k = q then some v else lookupAssoc m q := by
  induction m with
  | nil => simp [assocSet, lookupAssoc]
  | cons kv rest ih =>
    obtain ⟨k1, v1⟩ := kv
    by_cases hk : k1 = k
    · subst hk
      by_cases hq : k1 = q <;> simp [assocSet, lookupAssoc, hq]
    · by_cases hq : k1 = q
      · subst hq
        have : ¬ k = k1 := fun h => hk h.symm
        simp [assocSet, lookupAssoc, hk, this]
      · simp [assocSet, lookupAssoc, hk, hq, ih]

/-! ### splitOnChar lemmas -/

theorem splitOnChar_ne_nil (c : Char) (l : List Char) : splitOnChar c l ≠ [] := by
  cases l with
  | nil => simp [splitOnChar]
  | cons x xs =>
    simp only [splitOnChar]
    by_cases hx : x = c
    · simp [hx]
    · cases h : splitOnChar c xs <;> simp [hx, h]

theorem splitOnChar_not_mem {c : Char} {l : List Char} (h : c ∉ l) :
    splitOnChar c l = [l] := by
  induction l with
  | nil => rfl
  | cons x xs ih =>
    have hx : ¬ x = c := fun he => h (he ▸ List.mem_cons_self _ _)
    have hxs : c ∉ xs := fun hm => h (List.mem_cons_of_mem _ hm)
    simp [splitOnChar, hx, ih hxs]

theorem splitOnChar_append {c : Char} {p : List Char} (r : List Char) (h : c ∉ p) :
    splitOnChar c (p ++ c :: r) = p :: splitOnChar c r := by
  induction p with
  | nil => simp [splitOnChar]
  | cons x xs ih =>
    have hx : ¬ x = c := fun he => h (he ▸ List.mem_cons_self _ _)
    have hxs : c ∉ xs := fun hm => h (List.mem_cons_of_mem _ hm)
    simp [splitOnChar, hx, ih hxs]

/-! ### jsTrim lemmas -/

theorem dropWhile_head?_false {α : Type} {p : α → Bool} {l : List α} {a : α}
    (h : (l.dropWhile p).head? = some a) : p a = false := by
  have hd := List.head?_dropWhile_not p l
  rw [h] at hd
  exact hd

theorem dropWhile_eq_self_of_head? {α : Type} {p : α → Bool} {l : List α}
    (h : ∀ a, l.head? = some a → p a = false) : l.dropWhile p = l := by
  cases l with
  | nil => rfl
  | cons x xs =>
    have hx := h x rfl
    simp [List.dropWhile, hx]

theorem getLast?_dropWhile {α : Type} {p : α → Bool} {l : List α}
    (h : l.dropWhile p ≠ []) : (l.dropWhile p).getLast? = l.getLast? := by
  induction l with
  | nil => simp [List.dropWhile] at h
  | cons x xs ih =>
    by_cases hx : p x
    · have hdw : (x :: xs).dropWhile p = xs.dropWhile p := by simp [List.dropWhile, hx]
      rw [hdw] at h ⊢
      have hxs : xs ≠ [] := by
        intro he
        subst he
        simp [List.dropWhile] at h
      obtain ⟨y, ys, rfl⟩ := List.exists_cons_of_ne_nil hxs
      rw [ih h, List.getLast?_cons_cons]
    · simp [List.dropWhile, hx]

theorem jsTrim_idem (l : List Char) : jsTrim (jsTrim l) = jsTrim l := by
  unfold jsTrim
  set u := l.dropWhile isJsWhitespace with hu
  set v := u.reverse.dropWhile isJsWhitespace with hv
  by_cases hvnil : v = []
  · simp [hvnil, List.dropWhile]
  · have h1 : v.reverse.dropWhile isJsWhitespace = v.reverse := by
      apply dropWhile_eq_self_of_head?
      intro a ha
      rw [List.head?_reverse] at ha
      rw [getLast?_dropWhile hvnil, List.getLast?_reverse] at ha
      exact dropWhile_head?_false (l := l) (hu ▸ ha)
    rw [h1, List.reverse_reverse]
    have h2 : v.dropWhile isJsWhitespace = v := by
      apply dropWhile_eq_self_of_head?
      intro a ha
      exact dropWhile_head?_false (hv ▸ ha)
    rw [h2]

theorem jsTrim_eq_nil_of_all_ws {l : List Char}
    (h : ∀ c ∈ l, isJsWhitespace c = true) : jsTrim l = [] := by
  unfold jsTrim
  have h1 : l.dropWhile isJsWhitespace = [] := List.dropWhile_eq_nil_iff.mpr h
  simp [h1, List.dropWhile]

/-! ### Cache lemmas -/

theorem lookupAssoc_drop_none {β : Type} {m : List (List Char × β)} {k : List Char}
    (n : Nat) (h : lookupAssoc m k = none) : lookupAssoc (m.drop n) k = none := by
  rw [lookupAssoc_eq_none_iff] at h ⊢
  intro kv hkv
  exact h kv (List.mem_of_mem_drop hkv)

theorem parseStyle_fst_of_inv {c : Cache} (s : List Char) (h : CacheInv c) :
    (parseStyle c s).1 = parsePure s := by
  by_cases hnil : jsTrim s = []
  · simp [parseStyle, parsePure, hnil]
  · cases hlook : lookupAssoc c (jsTrim s) with
    | none => simp [parseStyle, parsePure, hnil, hlook]
    | some cached =>
      have hmem := lookupAssoc_mem hlook
      have hkv : cached = parseStyleCore (jsTrim s) := (h _ hmem).1
      simp [parseStyle, parsePure, hnil, hlook, hkv]

theorem cacheInv_step {c : Cache} (s : List Char) (h : CacheInv c) :
    CacheInv (parseStyle c s).2 := by
  by_cases hnil : jsTrim s = []
  · simpa [parseStyle, hnil] using h
  · cases hlook : lookupAssoc c (jsTrim s) with
    | some cached => simpa [parseStyle, hnil, hlook] using h
    | none =>
      by_cases hlen : MAX_STYLE_CACHE_ENTRIES ≤ c.length
      · simp only [parseStyle, hnil, hlook, hlen, if_true, if_false, ite_true, ite_false,
          if_pos, if_neg, not_false_eq_true]
        intro kv hkv
        rcases mem_assocSet (by simpa [hlen] using hkv) with hm | he
        · exact h _ (List.tail_subset _ hm)
        · subst he
          exact ⟨rfl, jsTrim_idem s, hnil⟩
      · simp only [parseStyle, hnil, hlook, hlen, if_true, if_false, ite_true, ite_false,
          if_pos, if_neg, not_false_eq_true]
        intro kv hkv
        rcases mem_assocSet (by simpa [hlen] using hkv) with hm | he
        · exact h _ hm
        · subst he
          exact ⟨rfl, jsTrim_idem s, hnil⟩

theorem reachable_cacheInv {c : Cache} (h : Reachable c) : CacheInv c := by
  induction h with
  | nil => intro kv hkv; simp at hkv
  | step c s _ ih => exact cacheInv_step s ih

theorem reachable_length_le {c : Cache} (h : Reachable c) :
    c.length ≤ MAX_STYLE_CACHE_ENTRIES := by
  induction h with
  | nil => simp [MAX_STYLE_CACHE_ENTRIES]
  | step c s hc ih =>
    by_cases hnil : jsTrim s = []
    · simpa [parseStyle, hnil] using ih
    · cases hlook : lookupAssoc c (jsTrim s) with
      | some cached => simpa [parseStyle, hnil, hlook] using ih
      | none =>
        by_cases hlen : MAX_STYLE_CACHE_ENTRIES ≤ c.length
        · have hceq : c.length = MAX_STYLE_CACHE_ENTRIES := le_antisymm ih hlen
          have hdrop := lookupAssoc_drop_none (m := c) 1 hlook
          simp only [parseStyle, hnil, hlook, hlen, if_true, ite_true, ite_false,
            not_false_eq_true, if_neg, if_pos]
          rw [assocSet_of_lookupAssoc_none _ hdrop]
          simp only [List.length_append, List.length_drop, hceq,
            MAX_STYLE_CACHE_ENTRIES, List.length_cons, List.length_nil]
          omega
        · simp only [parseStyle, hnil, hlook, hlen, if_true, ite_true, ite_false,
            not_false_eq_true, if_neg, if_pos, if_false]
          rw [assocSet_of_lookupAssoc_none _ hlook]
          simp only [List.length_append, List.length_cons, List.length_nil]
          push_neg at hlen
          omega

theorem parseStyle_evicts {c : Cache} {s : List Char}
    (hlen : MAX_STYLE_CACHE_ENTRIES ≤ c.length) (hnil : jsTrim s ≠ [])
    (hlook : lookupAssoc c (jsTrim s) = none) :
    (parseStyle c s).2 = c.drop 1 ++ [(jsTrim s, parseStyleCore (jsTrim s))] := by
  have hdrop : lookupAssoc c.tail (jsTrim s) = none := by
    rw [← List.drop_one]
    exact lookupAssoc_drop_none 1 hlook
  simp [parseStyle, hnil, hlook, hlen, assocSet_of_lookupAssoc_none _ hdrop]

/-! ### Declaration-level lemmas -/

theorem declKV_no_colon {el : List Char} (h : ':' ∉ el) : declKV el = none := by
  simp [declKV, splitOnChar_not_mem h]

theorem declKV_empty_property (v : List Char) : declKV (':' :: v) = none := by
  have : (':' :: v) = [] ++ ':' :: v := rfl
  rw [this, declKV, splitOnChar_append v (by simp)]
  cases hsp : splitOnChar ':' v with
  | nil => simp
  | cons h t => simp

theorem declKV_wellformed {p v : List Char} (hp : ':' ∉ p) (hv : ':' ∉ v) (hne : p ≠ []) :
    declKV (p ++ ':' :: v) = some (normalizeProperty p, jsTrim v) := by
  rw [declKV, splitOnChar_append v hp, splitOnChar_not_mem hv]
  simp [hne]

theorem declKV_second_colon {p v : List Char} (r : List Char)
    (hp : ':' ∉ p) (hv : ':' ∉ v) (hne : p ≠ []) :
    declKV (p ++ ':' :: (v ++ ':' :: r)) = some (normalizeProperty p, jsTrim v) := by
  rw [declKV, splitOnChar_append (v ++ ':' :: r) hp, splitOnChar_append r hv]
  simp [hne]

/-! ### Last-contribution lemmas -/

theorem lookupAssoc_processDecl (m : StyleMap) (el k : List Char) :
    lookupAssoc (processDecl m el) k =
      match contribution el k with
      | some v => some v
      | none => lookupAssoc m k := by
  unfold processDecl contribution
  cases hkv : declKV el with
  | none => simp
  | some kv =>
    obtain ⟨k1, v⟩ := kv
    simp only [lookupAssoc_assocSet]
    by_cases hk : k1 = k <;> simp [hk]

theorem lookupAssoc_foldl (ds : List (List Char)) (m : StyleMap) (k : List Char) :
    lookupAssoc (ds.foldl processDecl m) k = lastContributionAux (lookupAssoc m k) ds k := by
  induction ds generalizing m with
  | nil => simp [lastContributionAux]
  | cons el rest ih =>
    simp only [List.foldl_cons, lastContributionAux]
    rw [ih, lookupAssoc_processDecl]

theorem lastContributionAux_acc (ds : List (List Char)) (k : List Char)
    (acc : Option (List Char)) :
    lastContributionAux acc ds k =
      match lastContributionAux none ds k with
      | some v => some v
      | none => acc := by
  induction ds generalizing acc with
  | nil => simp [lastContributionAux]
  | cons el rest ih =>
    simp only [lastContributionAux]
    cases hc : contribution el k with
    | none =>
      simpa using ih acc
    | some v =>
      simp only [ih (some v)]
      cases hl : lastContributionAux none rest k <;> simp

/-! ### toCamelCase lemmas -/

theorem toCamelCase_append_dash (x : Char) (l2 : List Char) :
    ∀ l1 : List Char, isAsciiLower x = true → l1.getLast? ≠ some '-' →
      toCamelCase (l1 ++ '-' :: x :: l2) = toCamelCase l1 ++ Char.toUpper x :: toCamelCase l2 := by
  intro l1
  induction l1 using toCamelCase.induct with
  | case1 =>
    intro hx _
    simp [toCamelCase, hx]
  | case2 c =>
    intro hx hlast
    have hc : ¬ c = '-' := by
      intro he
      exact hlast (by simp [he])
    have hdash : isAsciiLower '-' = false := by decide
    simp [toCamelCase, hx, hc, hdash]
  | case3 c1 c2 rest hcond ih =>
    intro hx hlast
    have hrest : rest.getLast? ≠ some '-' := by
      cases hr : rest with
      | nil => simp
      | cons y ys =>
        rw [List.getLast?_cons_cons, hr, List.getLast?_cons_cons] at hlast
        exact hlast
    have hih := ih hx hrest
    simp only [List.cons_append, toCamelCase, if_pos hcond, List.append_assoc]
    exact congrArg (List.cons (Char.toUpper c2)) hih
  | case4 c1 c2 rest hcond ih =>
    intro hx hlast
    have hlast2 : (c2 :: rest).getLast? ≠ some '-' := by
      rw [List.getLast?_cons_cons] at hlast
      exact hlast
    have hih := ih hx hlast2
    simp only [List.cons_append, toCamelCase, if_neg hcond]
    simpa [List.cons_append] using hih

theorem toCamelCase_id_of_no_match {l : List Char}
    (h : List.Chain' (fun a b => ¬(a = '-' ∧ isAsciiLower b = true)) l) :
    toCamelCase l = l := by
  induction l using toCamelCase.induct with
  | case1 => rfl
  | case2 c => rfl
  | case3 c1 c2 rest hcond ih =>
    rw [List.chain'_cons] at h
    exact absurd hcond h.1
  | case4 c1 c2 rest hcond ih =>
    rw [List.chain'_cons] at h
    simp only [toCamelCase, if_neg hcond]
    rw [ih h.2]

theorem parsePure_trim_congr {s1 s2 : List Char} (h : jsTrim s1 = jsTrim s2) :
    parsePure s1 = parsePure s2 := by
  unfold parsePure
  rw [h]

theorem exists_first_split {c : Char} {l : List Char} (h : c ∈ l) :
    ∃ p r, l = p ++ c :: r ∧ c ∉ p := by
  induction l with
  | nil => cases h
  | cons x xs ih =>
    by_cases hx : x = c
    · exact ⟨[], xs, by simp [hx], by simp⟩
    · have hm : c ∈ xs := by
        rcases List.mem_cons.mp h with h1 | h1
        · exact absurd h1.symm hx
        · exact h1
      obtain ⟨p, r, rfl, hp⟩ := ih hm
      refine ⟨x :: p, r, rfl, ?_⟩
      intro hc
      rcases List.mem_cons.mp hc with h1 | h1
      · exact hx h1.symm
      · exact hp h1

/-! ### Claim theorems -/

/-- C1: the style cache is transparent: for every style string `s` and every
cache state reachable by prior `parseStyle` calls (including states built from
more than 200 distinct inputs), `parseStyle` returns a style map equal to the
pure, uncached parsing algorithm applied to `s`. -/
theorem parseStyle_refines_pure (c : Cache) (s : List Char) (h : Reachable c) :
    (parseStyle c s).1 = parsePure s :=
  parseStyle_fst_of_inv s (reachable_cacheInv h)

theorem parseStyle_refines_pure_witness :
    (parseStyle [] (chars "color: red")).1 = parsePure (chars "color: red") :=
  parseStyle_refines_pure [] (chars "color: red") Reachable.nil

/-- C2 counterexample: on the declaration `a:b:c` the stored value is `b`
(the text between the first and second colon), not the entire text `b:c`
after the first colon, so the claim as stated fails. -/
theorem parseStyle_value_truncated_counterexample :
    (parseStyle [] (chars "a:b:c")).1 = [(chars "a", chars "b")] ∧
      chars "b" ≠ chars "b:c" := by
  constructor
  · decide
  · decide

/-- C2 amended: `parseStyle` splits each declaration on `:` and keeps only the
first two parts: the property is the text before the first colon and the
stored value is the (trimmed) text between the first and the second colon;
any text from a second colon onward is discarded. -/
theorem parseStyle_splits_value_at_second_colon :
    (∀ p v : List Char, ':' ∉ p → ':' ∉ v → p ≠ [] →
      declKV (p ++ ':' :: v) = some (normalizeProperty p, jsTrim v)) ∧
    (∀ p v r : List Char, ':' ∉ p → ':' ∉ v → p ≠ [] →
      declKV (p ++ ':' :: (v ++ ':' :: r)) = some (normalizeProperty p, jsTrim v)) :=
  ⟨fun _ _ hp hv hne => declKV_wellformed hp hv hne,
   fun _ _ r hp hv hne => declKV_second_colon r hp hv hne⟩

theorem parseStyle_splits_value_at_second_colon_witness :
    declKV (chars "a" ++ ':' :: (chars "b" ++ ':' :: chars "c")) =
      some (normalizeProperty (chars "a"), jsTrim (chars "b")) :=
  parseStyle_splits_value_at_second_colon.2 (chars "a") (chars "b") (chars "c")
    (by decide) (by decide) (by decide)

/-- C3: every reachable cache state holds at most 200 entries, and inserting a
new distinct normalized input into a full cache first evicts exactly the
single oldest-inserted entry (the head of the insertion-ordered cache), then
appends the new entry. -/
theorem styleCache_bounded_and_evicts_oldest :
    (∀ c : Cache, Reachable c → c.length ≤ MAX_STYLE_CACHE_ENTRIES) ∧
    (∀ (c : Cache) (s : List Char), MAX_STYLE_CACHE_ENTRIES ≤ c.length →
      jsTrim s ≠ [] → lookupAssoc c (jsTrim s) = none →
      (parseStyle c s).2 = c.drop 1 ++ [(jsTrim s, parseStyleCore (jsTrim s))]) :=
  ⟨fun _ h => reachable_length_le h, fun _ _ hlen hnil hlook => parseStyle_evicts hlen hnil hlook⟩

set_option maxRecDepth 4000 in
theorem styleCache_bounded_and_evicts_oldest_witness :
    ([] : Cache).length ≤ MAX_STYLE_CACHE_ENTRIES ∧
    (parseStyle witnessCache (chars "b")).2 =
      witnessCache.drop 1 ++ [(jsTrim (chars "b"), parseStyleCore (jsTrim (chars "b")))] :=
  ⟨styleCache_bounded_and_evicts_oldest.1 [] Reachable.nil,
   styleCache_bounded_and_evicts_oldest.2 witnessCache (chars "b")
     (by decide) (by decide) (by decide)⟩

/-- C4: `parseStyle` is deterministic up to trimming: two inputs equal after
trimming yield equal style maps, from any reachable cache states. -/
theorem parseStyle_deterministic_up_to_trim (c1 c2 : Cache) (s1 s2 : List Char)
    (h1 : Reachable c1) (h2 : Reachable c2) (hs : jsTrim s1 = jsTrim s2) :
    (parseStyle c1 s1).1 = (parseStyle c2 s2).1 := by
  rw [parseStyle_fst_of_inv s1 (reachable_cacheInv h1),
    parseStyle_fst_of_inv s2 (reachable_cacheInv h2)]
  exact parsePure_trim_congr hs

theorem parseStyle_deterministic_up_to_trim_witness :
    (parseStyle [] (chars "  color:red  ")).1 = (parseStyle [] (chars "color:red")).1 :=
  parseStyle_deterministic_up_to_trim [] [] (chars "  color:red  ") (chars "color:red")
    Reachable.nil Reachable.nil (by decide)

/-- C5: for a well-formed declaration the property name is trimmed; a trimmed
name starting with `--` is preserved verbatim, any other name is converted
from kebab-case to camelCase (each non-overlapping `-x` with `x` an ASCII
lowercase letter becomes uppercase `X`, all other characters are unchanged);
the value is trimmed and stored as-is. -/
theorem property_normalization :
    (∀ raw : List Char, startsWithDashDash (jsTrim raw) = true →
      normalizeProperty raw = jsTrim raw) ∧
    (∀ raw : List Char, startsWithDashDash (jsTrim raw) = false →
      normalizeProperty raw = toCamelCase (jsTrim raw)) ∧
    (∀ (l1 : List Char) (x : Char) (l2 : List Char), isAsciiLower x = true →
      l1.getLast? ≠ some '-' →
      toCamelCase (l1 ++ '-' :: x :: l2) = toCamelCase l1 ++ Char.toUpper x :: toCamelCase l2) ∧
    (∀ l : List Char, List.Chain' (fun a b => ¬(a = '-' ∧ isAsciiLower b = true)) l →
      toCamelCase l = l) ∧
    (∀ p v : List Char, ':' ∉ p → ':' ∉ v → p ≠ [] →
      declKV (p ++ ':' :: v) = some (normalizeProperty p, jsTrim v)) := by
  refine ⟨?_, ?_, ?_, ?_, ?_⟩
  · intro raw h
    simp [normalizeProperty, h]
  · intro raw h
    simp [normalizeProperty, h]
  · intro l1 x l2 hx hlast
    exact toCamelCase_append_dash x l2 l1 hx hlast
  · intro l h
    exact toCamelCase_id_of_no_match h
  · intro p v hp hv hne
    exact declKV_wellformed hp hv hne

theorem property_normalization_witness :
    normalizeProperty (chars " --x ") = jsTrim (chars " --x ") ∧
    normalizeProperty (chars " margin-top ") = toCamelCase (jsTrim (chars " margin-top ")) ∧
    toCamelCase (chars "margin" ++ '-' :: 't' :: chars "op") =
      toCamelCase (chars "margin") ++ Char.toUpper 't' :: toCamelCase (chars "op") ∧
    declKV (chars "margin-top " ++ ':' :: chars " 2px") =
      some (normalizeProperty (chars "margin-top "), jsTrim (chars " 2px")) :=
  ⟨property_normalization.1 (chars " --x ") (by decide),
   property_normalization.2.1 (chars " margin-top ") (by decide),
   property_normalization.2.2.1 (chars "margin") 't' (chars "op") (by decide) (by decide),
   property_normalization.2.2.2.2 (chars "margin-top ") (chars " 2px")
     (by decide) (by decide) (by decide)⟩

/-- C6: an input that is empty or consists only of whitespace parses to the
empty map, both through `parseStyle` and through the pure algorithm. -/
theorem parseStyle_whitespace_empty (c : Cache) (s : List Char)
    (h : ∀ ch ∈ s, isJsWhitespace ch = true) :
    (parseStyle c s).1 = [] ∧ parsePure s = [] := by
  have ht := jsTrim_eq_nil_of_all_ws h
  exact ⟨by simp [parseStyle, ht], by simp [parsePure, ht]⟩

theorem parseStyle_whitespace_empty_witness :
    ((parseStyle [] (chars "   ")).1 = [] ∧ parsePure (chars "   ") = []) ∧
    ((parseStyle [] (chars "")).1 = [] ∧ parsePure (chars "") = []) :=
  ⟨parseStyle_whitespace_empty [] (chars "   ") (by decide),
   parseStyle_whitespace_empty [] (chars "") (by decide)⟩

/-- C7: a candidate declaration is skipped (contributes nothing to the map)
exactly when it has no colon or its raw property part (the text before the
first colon) is empty; every other declaration stores its key/value pair.
Every branch of the loop body is total, so no input can make parsing throw. -/
theorem malformed_declaration_skipped (m : StyleMap) (el : List Char) :
    (declKV el = none ↔ (':' ∉ el ∨ el.head? = some ':')) ∧
    (declKV el = none → processDecl m el = m) ∧
    (∀ k v : List Char, declKV el = some (k, v) → processDecl m el = assocSet m k v) := by
  refine ⟨⟨?_, ?_⟩, ?_, ?_⟩
  · intro hnone
    by_cases hc : ':' ∈ el
    · right
      obtain ⟨p, r, rfl, hp⟩ := exists_first_split hc
      rw [declKV, splitOnChar_append r hp] at hnone
      cases hsp : splitOnChar ':' r with
      | nil => exact absurd hsp (splitOnChar_ne_nil ':' r)
      | cons h2 t2 =>
        rw [hsp] at hnone
        by_cases hpe : p = []
        · subst hpe
          simp
        · simp [hpe] at hnone
    · exact Or.inl hc
  · intro h
    rcases h with h | h
    · exact declKV_no_colon h
    · cases el with
      | nil => simp at h
      | cons x t =>
        simp only [List.head?_cons, Option.some.injEq] at h
        subst h
        exact declKV_empty_property t
  · intro h
    simp [processDecl, h]
  · intro k v h
    simp [processDecl, h]

theorem malformed_declaration_skipped_witness :
    (processDecl [] (chars "no-colon-here") = []) ∧
    (processDecl [] (chars ": red") = []) ∧
    (processDecl [] (chars "color:red") = assocSet [] (chars "color") (chars "red")) :=
  ⟨(malformed_declaration_skipped [] (chars "no-colon-here")).2.1 (by decide),
   (malformed_declaration_skipped [] (chars ": red")).2.1 (by decide),
   (malformed_declaration_skipped [] (chars "color:red")).2.2 (chars "color") (chars "red")
     (by decide)⟩

/-- C8: `parseStyle` on `"color: red; --x: 1; margin-top : 2px"` yields
exactly the map `color ↦ red`, `--x ↦ 1`, `marginTop ↦ 2px`. -/
theorem parseStyle_example_map :
    (parseStyle [] (chars "color: red; --x: 1; margin-top : 2px")).1 =
      [(chars "color", chars "red"), (chars "--x", chars "1"),
       (chars "marginTop", chars "2px")] := by
  decide

/-- C9: when several declarations of one input store the same normalized
property name, the resulting map holds the value of the last such
declaration: looking the key up yields exactly the last contribution. -/
theorem duplicate_property_last_wins (s k v : List Char) (hnil : jsTrim s ≠ [])
    (h : lastContribution (splitOnChar ';' (jsTrim s)) k = some v) :
    lookupAssoc (parsePure s) k = some v := by
  have h2 : lookupAssoc (parseStyleCore (jsTrim s)) k = some v := by
    rw [parseStyleCore, lookupAssoc_foldl]
    exact h
  simp [parsePure, hnil, h2]

theorem duplicate_property_last_wins_witness :
    lookupAssoc (parsePure (chars "color: red; color: blue")) (chars "color") =
      some (chars "blue") :=
  duplicate_property_last_wins (chars "color: red; color: blue") (chars "color")
    (chars "blue") (by decide) (by decide)

/-- C10: a declaration with a colon but an empty or whitespace-only value is
kept, storing the empty string as its value, while a declaration whose raw
property part is empty is skipped; concretely, `"color:"` maps `color` to the
empty string and `": red"` contributes nothing. -/
theorem empty_value_kept_empty_property_skipped :
    (∀ p v : List Char, ':' ∉ p → p ≠ [] → ':' ∉ v →
      (∀ c ∈ v, isJsWhitespace c = true) →
      declKV (p ++ ':' :: v) = some (normalizeProperty p, [])) ∧
    (∀ v : List Char, declKV (':' :: v) = none) ∧
    (parseStyle [] (chars "color:")).1 = [(chars "color", [])] ∧
    (parseStyle [] (chars "a:b;: red")).1 = [(chars "a", chars "b")] := by
  refine ⟨?_, ?_, by decide, by decide⟩
  · intro p v hp hne hv hws
    rw [declKV_wellformed hp hv hne, jsTrim_eq_nil_of_all_ws hws]
  · exact declKV_empty_property

theorem empty_value_kept_empty_property_skipped_witness :
    declKV (chars "color" ++ ':' :: chars "   ") =
      some (normalizeProperty (chars "color"), []) ∧
    declKV (':' :: chars " red") = none :=
  ⟨empty_value_kept_empty_property_skipped.1 (chars "color") (chars "   ")
     (by decide) (by decide) (by decide) (by decide),
   empty_value_kept_empty_property_skipped.2.1 (chars " red")⟩
